import Mathlib

/-!
Verification of the windowed accumulation / reconstruction-trigger / mesh-fusion
controller of `src/apps/pipelines/slam/puma_pipeline.py`.

The controller state and the driving loop are embedded from the source.
External collaborators (open3d mesh operations, the Poisson reconstructor,
preprocessing, pose loading) enter either as documented-behaviour models
(the mesh concatenation and deduplication operators, whose semantics the
open3d documentation fixes) or as abstract function parameters (the
reconstructor, the per-frame scan production).
-/

/-- Vertex positions.  open3d compares vertex coordinates by exact equality
when removing duplicated vertices, so positions are modelled as an exact
(decidable-equality) coordinate triple. -/
abbrev V : Type := ℤ × ℤ × ℤ

/-- A triangle: three indices into a mesh's vertex list. -/
abbrev Tri : Type := ℕ × ℕ × ℕ

/-- A triangle mesh: `o3d.geometry.TriangleMesh` restricted to the fields the
pipeline manipulates (vertex list and triangle list). -/
structure Mesh where
  vertices : List V
  triangles : List Tri
deriving DecidableEq, Repr

/-- `o3d.geometry.TriangleMesh()` — the empty mesh (lines 130 and 136). -/
def emptyMesh : Mesh := ⟨[], []⟩

/-- Shift a triangle's vertex indices by an offset. -/
def shiftTri (off : ℕ) (t : Tri) : Tri := (t.1 + off, t.2.1 + off, t.2.2 + off)

/-- `global_mesh += mesh` (line 166): open3d mesh concatenation — the second
mesh's vertices are appended and its triangles are re-indexed past the first
mesh's vertices (representation-level union, no geometric alignment). -/
def meshConcat (m1 m2 : Mesh) : Mesh :=
  ⟨m1.vertices ++ m2.vertices,
   m1.triangles ++ m2.triangles.map (shiftTri m1.vertices.length)⟩

/-- Keep the first occurrence of each key, dropping later elements whose key
was already seen (`seen` accumulates the keys kept so far).  This is the
scan-with-a-hash-map-of-seen-keys procedure used by open3d's
`RemoveDuplicated*` operations. -/
def dedupAux {α β : Type} [DecidableEq β] (key : α → β) (seen : List β) :
    List α → List α
  | [] => []
  | a :: l =>
    if key a ∈ seen then dedupAux key seen l
    else a :: dedupAux key (key a :: seen) l

/-- Remove duplicates by key, keeping first occurrences in order. -/
def dedupByFirst {α β : Type} [DecidableEq β] (key : α → β) (l : List α) :
    List α :=
  dedupAux key [] l

/-- The identity of a triangle for duplicate removal: the multiset of its
vertex indices (open3d removes triangles that reference the same three
vertices independent of order). -/
def triKey (t : Tri) : Multiset ℕ := {t.1, t.2.1, t.2.2}

/-- `remove_duplicated_triangles` (line 167): open3d
`RemoveDuplicatedTriangles` — drop triangles referencing the same three
vertices as an earlier triangle; vertices untouched. -/
def removeDuplicatedTriangles (m : Mesh) : Mesh :=
  ⟨m.vertices, dedupByFirst triKey m.triangles⟩

/-- Default vertex used to totalise out-of-range index lookups. -/
def defaultV : V := (0, 0, 0)

/-- The position referenced by vertex index `i` of mesh `m`. -/
def posOf (m : Mesh) (i : ℕ) : V := m.vertices.getD i defaultV

/-- The index of the first occurrence of `v` in `l` (the length of `l` when
`v` does not occur). -/
def firstIdx : List V → V → ℕ
  | [], _ => 0
  | a :: l, v => if a = v then 0 else firstIdx l v + 1

/-- `remove_duplicated_vertices` (line 168): open3d
`RemoveDuplicatedVertices` — keep the first occurrence of each distinct
vertex value and re-index every triangle to the representative (the index of
the first equal vertex). -/
def removeDuplicatedVertices (m : Mesh) : Mesh :=
  let vs := dedupByFirst id m.vertices
  ⟨vs, m.triangles.map fun t =>
    (firstIdx vs (posOf m t.1), firstIdx vs (posOf m t.2.1),
     firstIdx vs (posOf m t.2.2))⟩

/-- The vertex index a triangle index of `m` is re-mapped to by
`removeDuplicatedVertices`: the index, in the deduplicated vertex list, of
the position it referenced. -/
def rvIdx (m : Mesh) (i : ℕ) : ℕ :=
  firstIdx (dedupByFirst id m.vertices) (posOf m i)

/-- The combined deduplication pass of lines 167–168: duplicated triangles
removed first, then duplicated vertices merged. -/
def dedupPass (m : Mesh) : Mesh :=
  removeDuplicatedVertices (removeDuplicatedTriangles m)

/-- The set of vertex positions of a mesh. -/
def vertexSet (m : Mesh) : Finset V := m.vertices.toFinset

/-- The positions referenced by a triangle, as a multiset (triangle identity
independent of vertex order, matching the duplicate-triangle notion). -/
def triPos (m : Mesh) (t : Tri) : Multiset V := (triKey t).map (posOf m)

/-- The set of triangles of a mesh, each identified by the multiset of its
vertex positions. -/
def triangleSet (m : Mesh) : Finset (Multiset V) :=
  (m.triangles.map (triPos m)).toFinset

/-- `local_map.append scan` on `deque(maxlen=K)` (lines 133 and 148): append
and drop from the front whatever exceeds the capacity. -/
def pushWindow {α : Type} (K : ℕ) (buf : List α) (x : α) : List α :=
  let b := buf ++ [x]
  b.drop (b.length - K)

/-- Folding a whole sequence of pushes into an initially empty window. -/
def windowFold {α : Type} (K : ℕ) (xs : List α) : List α :=
  xs.foldl (pushWindow K) []

/-- The controller state threaded through the driving loop, together with
logs of the observable actions: `processed` records every loop iteration's
frame index, `recons` the indices at which a reconstruction pass ran
(lines 162–168), `interims` the indices at which the interim mesh file was
written (lines 173–175). -/
structure PState (α : Type) where
  scanCount : ℕ
  mapCount : ℕ
  localMap : List α
  globalMesh : Mesh
  processed : List ℕ
  recons : List ℕ
  interims : List ℕ
deriving Repr

/-- The state at line 142: both counters zero, empty window, empty global
mesh, nothing logged. -/
def initPState {α : Type} : PState α := ⟨0, 0, [], emptyMesh, [], [], []⟩

/-- One iteration of the driving loop (lines 143–175) for frame `idx`:
preprocess/transform the scan (abstracted into `scanOf`), push it into the
window, increment `scan_count`; if the trigger fires (`scan_count`
reached `acc_frame_count`, or last frame), reset `scan_count`, run the
reconstructor (abstracted into `recon`) on the window, fuse the patch into
the global mesh (concatenate, remove duplicated triangles, remove duplicated
vertices), increment `map_count`, and if `map_count` reached
`acc_map_count`, reset it and write the interim mesh file. -/
def stepP {α : Type} (accF accM : ℕ) (recon : List α → Mesh) (scanOf : ℕ → α)
    (nScans : ℕ) (s : PState α) (idx : ℕ) : PState α :=
  let lm := pushWindow accF s.localMap (scanOf idx)
  let sc := s.scanCount + 1
  if sc ≥ accF ∨ idx = nScans - 1 then
    let mesh := recon lm
    let gm := removeDuplicatedVertices
      (removeDuplicatedTriangles (meshConcat s.globalMesh mesh))
    let mc := s.mapCount + 1
    if mc ≥ accM then
      ⟨0, 0, lm, gm, s.processed ++ [idx], s.recons ++ [idx],
       s.interims ++ [idx]⟩
    else
      ⟨0, mc, lm, gm, s.processed ++ [idx], s.recons ++ [idx], s.interims⟩
  else
    ⟨sc, s.mapCount, lm, s.globalMesh, s.processed ++ [idx], s.recons,
     s.interims⟩

/-- Modelled from the spec: `get_progress_bar` (defined in `puma.utils`,
which is not under `src/`) supplies the driving loop's frame indices;
§4.5 of the specification fixes the iteration as "for each frame index in
[0, n_scans)". -/
def progressIndices (nScans : ℕ) : List ℕ := List.range nScans

/-- Run the loop body over a list of frame indices. -/
def runFrames {α : Type} (accF accM : ℕ) (recon : List α → Mesh)
    (scanOf : ℕ → α) (nScans : ℕ) (s : PState α) (idxs : List ℕ) : PState α :=
  idxs.foldl (stepP accF accM recon scanOf nScans) s

/-- Result of a whole run: the final loop state plus whether the final map
file was written (lines 177–181: exactly when mapping is enabled, i.e. not
odometry-only). -/
structure RunResult (α : Type) where
  state : PState α
  finalWrite : Bool
deriving Repr

/-- The whole pipeline run of `main` (lines 129–181): initialise the
containers, drive the loop over the frame indices, and finish with the
final map write exactly when `mapping_enabled = not odometry_only`. -/
def runPipeline {α : Type} (accF accM : ℕ) (recon : List α → Mesh)
    (scanOf : ℕ → α) (nScans : ℕ) (odometryOnly : Bool) : RunResult α :=
  ⟨runFrames accF accM recon scanOf nScans initPState
    (progressIndices nScans), !odometryOnly⟩

/-- Line 127: `n_scans = len(scan_names) if n_scans == -1 else n_scans` —
the CLI value `-1` means "use every scan found". -/
def resolveNScans (cliN : ℤ) (numScansFound : ℕ) : ℕ :=
  if cliN = -1 then numScansFound else cliN.toNat

/-- Every `C`-th element of a list, counting ordinals from `k + 1`. -/
def everyCthAux (C : ℕ) : ℕ → List ℕ → List ℕ
  | _, [] => []
  | k, x :: l => (if C ∣ k + 1 then [x] else []) ++ everyCthAux C (k + 1) l

/-- Every `C`-th element of a list (1-based): the elements at positions whose
1-based ordinal is a multiple of `C`. -/
def everyCth (C : ℕ) (l : List ℕ) : List ℕ := everyCthAux C 0 l

/-- A concrete reconstructor instantiation for closed evaluations. -/
def wRecon : List ℕ → Mesh := fun _ => emptyMesh

/-- A concrete scan stream instantiation for closed evaluations. -/
def wScan : ℕ → ℕ := fun i => i

/-- A mesh on which the combined dedup pass is not idempotent: its fifth
vertex duplicates the third, and merging them turns the two
distinct-by-index triangles into duplicates of one another. -/
def cexMesh : Mesh :=
  ⟨[(0, 0, 0), (1, 0, 0), (2, 0, 0), (3, 0, 0), (2, 0, 0)],
   [(0, 1, 2), (4, 1, 0)]⟩

/-! ### Deduplication lemmas -/

theorem dedupAux_subset {α β : Type} [DecidableEq β] (key : α → β)
    (l : List α) : ∀ (seen : List β) (b : α), b ∈ dedupAux key seen l → b ∈ l := by
  induction l with
  | nil => intro seen b h; simp [dedupAux] at h
  | cons a l ih =>
    intro seen b h
    simp only [dedupAux] at h
    by_cases hk : key a ∈ seen
    · rw [if_pos hk] at h
      exact List.mem_cons_of_mem a (ih seen b h)
    · rw [if_neg hk] at h
      rcases List.mem_cons.mp h with h | h
      · exact h ▸ List.mem_cons_self a l
      · exact List.mem_cons_of_mem a (ih _ b h)

theorem dedupAux_key_not_seen {α β : Type} [DecidableEq β] (key : α → β)
    (l : List α) : ∀ (seen : List β) (b : α),
      b ∈ dedupAux key seen l → key b ∉ seen := by
  induction l with
  | nil => intro seen b h; simp [dedupAux] at h
  | cons a l ih =>
    intro seen b h
    simp only [dedupAux] at h
    by_cases hk : key a ∈ seen
    · rw [if_pos hk] at h; exact ih seen b h
    · rw [if_neg hk] at h
      rcases List.mem_cons.mp h with h | h
      · subst h; exact hk
      · intro hmem
        exact ih _ b h (List.mem_cons_of_mem _ hmem)

theorem dedupAux_pairwise {α β : Type} [DecidableEq β] (key : α → β)
    (l : List α) : ∀ (seen : List β),
      (dedupAux key seen l).Pairwise (fun a b => key a ≠ key b) := by
  induction l with
  | nil => intro seen; simp [dedupAux]
  | cons a l ih =>
    intro seen
    simp only [dedupAux]
    by_cases hk : key a ∈ seen
    · rw [if_pos hk]; exact ih seen
    · rw [if_neg hk]
      refine List.Pairwise.cons ?_ (ih _)
      intro b hb he
      exact dedupAux_key_not_seen key l _ b hb
        (by rw [← he]; exact List.mem_cons_self _ _)

theorem dedupAux_eq_self {α β : Type} [DecidableEq β] (key : α → β)
    (l : List α) : ∀ (seen : List β),
      l.Pairwise (fun a b => key a ≠ key b) → (∀ b ∈ l, key b ∉ seen) →
      dedupAux key seen l = l := by
  induction l with
  | nil => intro seen _ _; simp [dedupAux]
  | cons a l ih =>
    intro seen hp hs
    simp only [dedupAux]
    rw [if_neg (hs a (List.mem_cons_self a l))]
    congr 1
    refine ih _ (List.pairwise_cons.mp hp).2 ?_
    intro b hb hmem
    rcases List.mem_cons.mp hmem with he | hseen
    · exact (List.pairwise_cons.mp hp).1 b hb he.symm
    · exact hs b (List.mem_cons_of_mem a hb) hseen

theorem dedupByFirst_idem {α β : Type} [DecidableEq β] (key : α → β)
    (l : List α) : dedupByFirst key (dedupByFirst key l) = dedupByFirst key l :=
  dedupAux_eq_self key _ [] (dedupAux_pairwise key l []) (by simp)

theorem mem_dedupAux_id {α : Type} [DecidableEq α] (l : List α) :
    ∀ (seen : List α) (v : α), v ∈ l → v ∉ seen → v ∈ dedupAux id seen l := by
  induction l with
  | nil => intro seen v h _; exact absurd h (List.not_mem_nil v)
  | cons a l ih =>
    intro seen v hv hs
    simp only [dedupAux]
    by_cases hk : id a ∈ seen
    · rw [if_pos hk]
      rcases List.mem_cons.mp hv with he | hl
      · subst he; exact absurd hk hs
      · exact ih seen v hl hs
    · rw [if_neg hk]
      rcases List.mem_cons.mp hv with he | hl
      · subst he; exact List.mem_cons_self _ _
      · by_cases hva : v = a
        · subst hva; exact List.mem_cons_self _ _
        · refine List.mem_cons_of_mem a (ih _ v hl ?_)
          intro hmem
          rcases List.mem_cons.mp hmem with he | hseen
          · exact hva he
          · exact hs hseen

theorem mem_dedupByFirst_id {α : Type} [DecidableEq α] (l : List α) (v : α) :
    v ∈ dedupByFirst id l ↔ v ∈ l :=
  ⟨dedupAux_subset id l [] v, fun h => mem_dedupAux_id l [] v h (List.not_mem_nil _)⟩

theorem dedupByFirst_id_nodup {α : Type} [DecidableEq α] (l : List α) :
    (dedupByFirst id l).Nodup := by
  have h := dedupAux_pairwise (α := α) id l []
  exact h

theorem dedupAux_map_toFinset {α β γ : Type} [DecidableEq β] [DecidableEq γ]
    (key : α → β) (g : α → γ) (hg : ∀ a b, key a = key b → g a = g b)
    (l : List α) : ∀ (seen : List β),
      ((dedupAux key seen l).map g).toFinset
        = ((l.filter fun b => decide (key b ∉ seen)).map g).toFinset := by
  induction l with
  | nil => intro seen; simp [dedupAux]
  | cons a l ih =>
    intro seen
    simp only [dedupAux]
    by_cases hk : key a ∈ seen
    · rw [if_pos hk]
      rw [List.filter_cons, if_neg (by simp [hk])]
      exact ih seen
    · rw [if_neg hk]
      rw [List.filter_cons, if_pos (by simp [hk])]
      simp only [List.map_cons, List.toFinset_cons, ih (key a :: seen)]
      apply Finset.ext
      intro x
      simp only [Finset.mem_insert, List.mem_toFinset, List.mem_map,
        List.mem_filter, List.mem_cons, decide_eq_true_eq]
      constructor
      · rintro (h | ⟨b, ⟨hbl, hbs⟩, rfl⟩)
        · exact Or.inl h
        · exact Or.inr ⟨b, ⟨hbl, fun hs => hbs (Or.inr hs)⟩, rfl⟩
      · rintro (h | ⟨b, ⟨hbl, hbs⟩, rfl⟩)
        · exact Or.inl h
        · by_cases hba : key b = key a
          · exact Or.inl (hg b a hba)
          · exact Or.inr ⟨b, ⟨hbl, fun hmem => hmem.elim hba hbs⟩, rfl⟩

theorem dedupByFirst_map_toFinset {α β γ : Type} [DecidableEq β] [DecidableEq γ]
    (key : α → β) (g : α → γ) (hg : ∀ a b, key a = key b → g a = g b)
    (l : List α) :
    ((dedupByFirst key l).map g).toFinset = (l.map g).toFinset := by
  have h := dedupAux_map_toFinset key g hg l []
  simpa [dedupByFirst] using h
/-! ### Vertex re-indexing lemmas -/

theorem firstIdx_getD {l : List V} {v : V} (h : v ∈ l) :
    l.getD (firstIdx l v) defaultV = v := by
  induction l with
  | nil => exact absurd h (List.not_mem_nil v)
  | cons a l ih =>
    by_cases ha : a = v
    · simp [firstIdx, ha]
    · rcases List.mem_cons.mp h with he | hl
      · exact absurd he.symm ha
      · simp only [firstIdx, if_neg ha]
        exact ih hl

theorem firstIdx_absent {l : List V} {v : V} (h : v ∉ l) :
    firstIdx l v = l.length := by
  induction l with
  | nil => rfl
  | cons a l ih =>
    have ha : a ≠ v := fun he => h (he ▸ List.mem_cons_self a l)
    simp only [firstIdx, if_neg ha, List.length_cons]
    rw [ih fun hl => h (List.mem_cons_of_mem a hl)]

theorem getD_firstIdx (l : List V) (v : V) (hv : v ∈ l ∨ v = defaultV) :
    l.getD (firstIdx l v) defaultV = v := by
  by_cases h : v ∈ l
  · exact firstIdx_getD h
  · rcases hv with h' | h'
    · exact absurd h' h
    · rw [firstIdx_absent h, List.getD_eq_default l defaultV le_rfl, h']

theorem posOf_mem_or_default (m : Mesh) (i : ℕ) :
    posOf m i ∈ m.vertices ∨ posOf m i = defaultV := by
  by_cases h : i < m.vertices.length
  · left
    rw [posOf, List.getD_eq_getElem m.vertices defaultV h]
    exact List.getElem_mem h
  · right
    rw [posOf, List.getD_eq_default m.vertices defaultV (le_of_not_lt h)]

theorem rdv_vertices (m : Mesh) :
    (removeDuplicatedVertices m).vertices = dedupByFirst id m.vertices := rfl

theorem rdv_triangles (m : Mesh) :
    (removeDuplicatedVertices m).triangles
      = m.triangles.map fun t => (rvIdx m t.1, rvIdx m t.2.1, rvIdx m t.2.2) :=
  rfl

theorem posOf_rdv (m : Mesh) (i : ℕ) :
    posOf (removeDuplicatedVertices m) (rvIdx m i) = posOf m i := by
  have hv := posOf_mem_or_default m i
  have hv' : posOf m i ∈ dedupByFirst id m.vertices ∨ posOf m i = defaultV := by
    rcases hv with h | h
    · exact Or.inl ((mem_dedupByFirst_id _ _).mpr h)
    · exact Or.inr h
  exact getD_firstIdx _ _ hv'

theorem rvIdx_of_rdv (y : Mesh) (i : ℕ) :
    rvIdx (removeDuplicatedVertices y) (rvIdx y i) = rvIdx y i := by
  show firstIdx (dedupByFirst id (removeDuplicatedVertices y).vertices)
      (posOf (removeDuplicatedVertices y) (rvIdx y i)) = rvIdx y i
  rw [rdv_vertices, dedupByFirst_idem, posOf_rdv]
  rfl

theorem map_eq_self_of {α : Type} {l : List α} {f : α → α}
    (h : ∀ x ∈ l, f x = x) : l.map f = l := by
  induction l with
  | nil => rfl
  | cons a l ih =>
    rw [List.map_cons, h a (List.mem_cons_self a l),
      ih fun x hx => h x (List.mem_cons_of_mem a hx)]

theorem rdv_eq_self (m : Mesh) (h1 : m.vertices.Nodup)
    (h2 : ∀ t ∈ m.triangles, (rvIdx m t.1, rvIdx m t.2.1, rvIdx m t.2.2) = t) :
    removeDuplicatedVertices m = m := by
  have hd : dedupByFirst id m.vertices = m.vertices :=
    dedupAux_eq_self id m.vertices [] h1 (by simp)
  have ht : (removeDuplicatedVertices m).triangles = m.triangles :=
    (rdv_triangles m).trans (map_eq_self_of h2)
  cases hm : removeDuplicatedVertices m with
  | mk v t =>
    have hv : v = m.vertices := by
      rw [← hd, ← rdv_vertices m, hm]
    have ht' : t = m.triangles := by rw [← ht, hm]
    rw [hv, ht']

theorem rdv_triangle_stable (y : Mesh) :
    ∀ t ∈ (removeDuplicatedVertices y).triangles,
      (rvIdx (removeDuplicatedVertices y) t.1,
       rvIdx (removeDuplicatedVertices y) t.2.1,
       rvIdx (removeDuplicatedVertices y) t.2.2) = t := by
  intro t ht
  rw [rdv_triangles] at ht
  rcases List.mem_map.mp ht with ⟨t0, _, rfl⟩
  show (rvIdx _ (rvIdx y t0.1), rvIdx _ (rvIdx y t0.2.1),
        rvIdx _ (rvIdx y t0.2.2)) = _
  rw [rvIdx_of_rdv, rvIdx_of_rdv, rvIdx_of_rdv]

theorem rdt_vertices (m : Mesh) :
    (removeDuplicatedTriangles m).vertices = m.vertices := rfl

theorem rdt_triangles (m : Mesh) :
    (removeDuplicatedTriangles m).triangles
      = dedupByFirst triKey m.triangles := rfl

theorem rdt_idem (m : Mesh) :
    removeDuplicatedTriangles (removeDuplicatedTriangles m)
      = removeDuplicatedTriangles m := by
  show Mesh.mk _ _ = Mesh.mk _ _
  rw [rdt_triangles, rdt_vertices, dedupByFirst_idem]

theorem dedupPass_two (m : Mesh) :
    dedupPass (dedupPass m) = removeDuplicatedTriangles (dedupPass m) := by
  apply rdv_eq_self
  · show (dedupByFirst id (removeDuplicatedTriangles m).vertices).Nodup
    exact dedupByFirst_id_nodup _
  · intro t ht
    rw [rdt_triangles] at ht
    have hsub : t ∈ (dedupPass m).triangles :=
      dedupAux_subset triKey (dedupPass m).triangles [] t ht
    exact rdv_triangle_stable (removeDuplicatedTriangles m) t hsub

/-! ### Preservation of vertex/triangle sets by the fusion steps -/

theorem meshConcat_empty (m : Mesh) : meshConcat m emptyMesh = m := by
  cases m with
  | mk v t => simp [meshConcat, emptyMesh]

theorem vertexSet_rdt (m : Mesh) :
    vertexSet (removeDuplicatedTriangles m) = vertexSet m := rfl

theorem triPos_rdt (m : Mesh) :
    triPos (removeDuplicatedTriangles m) = triPos m := rfl

theorem triangleSet_rdt (m : Mesh) :
    triangleSet (removeDuplicatedTriangles m) = triangleSet m := by
  unfold triangleSet
  rw [rdt_triangles, triPos_rdt]
  exact dedupByFirst_map_toFinset triKey (triPos m)
    (fun a b h => by unfold triPos; rw [h]) m.triangles

theorem vertexSet_rdv (m : Mesh) :
    vertexSet (removeDuplicatedVertices m) = vertexSet m := by
  unfold vertexSet
  rw [rdv_vertices]
  apply Finset.ext
  intro v
  simp only [List.mem_toFinset]
  exact mem_dedupByFirst_id m.vertices v

theorem triPos_rdv (m : Mesh) (t : Tri) :
    triPos (removeDuplicatedVertices m) (rvIdx m t.1, rvIdx m t.2.1, rvIdx m t.2.2)
      = triPos m t := by
  unfold triPos triKey
  simp only [Multiset.insert_eq_cons, Multiset.map_cons, Multiset.map_singleton]
  rw [posOf_rdv, posOf_rdv, posOf_rdv]

theorem triangleSet_rdv (m : Mesh) :
    triangleSet (removeDuplicatedVertices m) = triangleSet m := by
  unfold triangleSet
  rw [rdv_triangles, List.map_map]
  have hfun : (triPos (removeDuplicatedVertices m)) ∘
      (fun t : Tri => (rvIdx m t.1, rvIdx m t.2.1, rvIdx m t.2.2)) = triPos m :=
    funext fun t => triPos_rdv m t
  rw [hfun]

/-! ### Window buffer lemmas -/

theorem pushWindow_length_le {α : Type} (K : ℕ) (buf : List α) (x : α) :
    (pushWindow K buf x).length ≤ K := by
  unfold pushWindow
  simp only [List.length_drop, List.length_append, List.length_singleton]
  omega

theorem foldl_pushWindow {α : Type} (K : ℕ) :
    ∀ (xs : List α) (buf : List α), buf.length ≤ K →
      xs.foldl (pushWindow K) buf = (buf ++ xs).drop ((buf ++ xs).length - K) := by
  intro xs
  induction xs with
  | nil =>
    intro buf h
    simp only [List.foldl_nil, List.append_nil]
    rw [Nat.sub_eq_zero_of_le h, List.drop_zero]
  | cons x xs ih =>
    intro buf h
    rw [List.foldl_cons, ih (pushWindow K buf x) (pushWindow_length_le K buf x)]
    unfold pushWindow
    have hd : (buf ++ [x]).length - K ≤ (buf ++ [x]).length := Nat.sub_le _ _
    rw [← List.drop_append_of_le_length hd, List.drop_drop]
    have hbx : (buf ++ [x]) ++ xs = buf ++ x :: xs := by
      rw [List.append_assoc, List.singleton_append]
    rw [hbx]
    congr 1
    simp only [List.length_drop, List.length_append, List.length_singleton,
      List.length_cons, List.length_nil]
    omega

theorem windowFold_eq {α : Type} (K : ℕ) (xs : List α) :
    windowFold K xs = xs.drop (xs.length - K) := by
  have h := foldl_pushWindow K xs [] (by simp)
  simpa [windowFold] using h

theorem windowFold_length {α : Type} (K : ℕ) (xs : List α) :
    (windowFold K xs).length = min xs.length K := by
  rw [windowFold_eq, List.length_drop]
  omega

/-! ### Driving-loop step lemmas -/

theorem stepP_localMap {α : Type} (accF accM : ℕ) (recon : List α → Mesh)
    (scanOf : ℕ → α) (n : ℕ) (s : PState α) (idx : ℕ) :
    (stepP accF accM recon scanOf n s idx).localMap
      = pushWindow accF s.localMap (scanOf idx) := by
  simp only [stepP]
  split
  · split <;> rfl
  · rfl

theorem stepP_processed {α : Type} (accF accM : ℕ) (recon : List α → Mesh)
    (scanOf : ℕ → α) (n : ℕ) (s : PState α) (idx : ℕ) :
    (stepP accF accM recon scanOf n s idx).processed
      = s.processed ++ [idx] := by
  simp only [stepP]
  split
  · split <;> rfl
  · rfl

theorem stepP_fire {α : Type} (accF accM : ℕ) (recon : List α → Mesh)
    (scanOf : ℕ → α) (n : ℕ) (s : PState α) (idx : ℕ)
    (hf : s.scanCount + 1 ≥ accF ∨ idx = n - 1) :
    (stepP accF accM recon scanOf n s idx).scanCount = 0 ∧
    (stepP accF accM recon scanOf n s idx).recons = s.recons ++ [idx] := by
  by_cases hm : s.mapCount + 1 ≥ accM <;> simp [stepP, hf, hm]

theorem stepP_nofire {α : Type} (accF accM : ℕ) (recon : List α → Mesh)
    (scanOf : ℕ → α) (n : ℕ) (s : PState α) (idx : ℕ)
    (hf : ¬(s.scanCount + 1 ≥ accF ∨ idx = n - 1)) :
    (stepP accF accM recon scanOf n s idx).scanCount = s.scanCount + 1 ∧
    (stepP accF accM recon scanOf n s idx).recons = s.recons ∧
    (stepP accF accM recon scanOf n s idx).mapCount = s.mapCount ∧
    (stepP accF accM recon scanOf n s idx).interims = s.interims := by
  simp [stepP, hf]

theorem stepP_fire_ckpt {α : Type} (accF accM : ℕ) (recon : List α → Mesh)
    (scanOf : ℕ → α) (n : ℕ) (s : PState α) (idx : ℕ)
    (hf : s.scanCount + 1 ≥ accF ∨ idx = n - 1)
    (hm : s.mapCount + 1 ≥ accM) :
    (stepP accF accM recon scanOf n s idx).mapCount = 0 ∧
    (stepP accF accM recon scanOf n s idx).interims = s.interims ++ [idx] ∧
    (stepP accF accM recon scanOf n s idx).recons = s.recons ++ [idx] := by
  simp [stepP, hf, hm]

theorem stepP_fire_nockpt {α : Type} (accF accM : ℕ) (recon : List α → Mesh)
    (scanOf : ℕ → α) (n : ℕ) (s : PState α) (idx : ℕ)
    (hf : s.scanCount + 1 ≥ accF ∨ idx = n - 1)
    (hm : ¬ s.mapCount + 1 ≥ accM) :
    (stepP accF accM recon scanOf n s idx).mapCount = s.mapCount + 1 ∧
    (stepP accF accM recon scanOf n s idx).interims = s.interims ∧
    (stepP accF accM recon scanOf n s idx).recons = s.recons ++ [idx] := by
  simp [stepP, hf, hm]

theorem runFrames_cons {α : Type} (accF accM : ℕ) (recon : List α → Mesh)
    (scanOf : ℕ → α) (n : ℕ) (s : PState α) (i : ℕ) (l : List ℕ) :
    runFrames accF accM recon scanOf n s (i :: l)
      = runFrames accF accM recon scanOf n (stepP accF accM recon scanOf n s i) l :=
  rfl

theorem runFrames_append {α : Type} (accF accM : ℕ) (recon : List α → Mesh)
    (scanOf : ℕ → α) (n : ℕ) (s : PState α) (l1 l2 : List ℕ) :
    runFrames accF accM recon scanOf n s (l1 ++ l2)
      = runFrames accF accM recon scanOf n
          (runFrames accF accM recon scanOf n s l1) l2 :=
  List.foldl_append _ _ _ _

theorem runFrames_processed {α : Type} (accF accM : ℕ) (recon : List α → Mesh)
    (scanOf : ℕ → α) (n : ℕ) :
    ∀ (idxs : List ℕ) (s : PState α),
      (runFrames accF accM recon scanOf n s idxs).processed
        = s.processed ++ idxs := by
  intro idxs
  induction idxs with
  | nil => intro s; simp [runFrames]
  | cons i l ih =>
    intro s
    rw [runFrames_cons, ih, stepP_processed]
    simp

theorem runFrames_localMap {α : Type} (accF accM : ℕ) (recon : List α → Mesh)
    (scanOf : ℕ → α) (n : ℕ) :
    ∀ (idxs : List ℕ) (s : PState α),
      (runFrames accF accM recon scanOf n s idxs).localMap
        = (idxs.map scanOf).foldl (pushWindow accF) s.localMap := by
  intro idxs
  induction idxs with
  | nil => intro s; simp [runFrames]
  | cons i l ih =>
    intro s
    rw [runFrames_cons, ih, stepP_localMap]
    simp

/-! ### Counter arithmetic -/

theorem mod_succ_mod (C n : ℕ) : (n + 1) % C = (n % C + 1) % C := by
  conv_lhs => rw [← Nat.div_add_mod n C]
  rw [Nat.add_assoc, Nat.mul_add_mod]

theorem dvd_succ_iff_mod (C n : ℕ) (hC : 0 < C) :
    C ∣ (n + 1) ↔ n % C + 1 = C := by
  rw [Nat.dvd_iff_mod_eq_zero, mod_succ_mod]
  have h := Nat.mod_lt n hC
  constructor
  · intro h0
    rcases Nat.lt_or_ge (n % C + 1) C with hlt | hge
    · rw [Nat.mod_eq_of_lt hlt] at h0
      omega
    · omega
  · intro he
    rw [he, Nat.mod_self]

theorem mod_succ_of_lt (C n : ℕ) (h : n % C + 1 < C) :
    (n + 1) % C = n % C + 1 := by
  rw [mod_succ_mod, Nat.mod_eq_of_lt h]

theorem mod_succ_of_eq (C n : ℕ) (h : n % C + 1 = C) : (n + 1) % C = 0 := by
  rw [mod_succ_mod, h, Nat.mod_self]

/-! ### Checkpoint cadence -/

theorem everyCthAux_append (C x : ℕ) :
    ∀ (l : List ℕ) (k : ℕ),
      everyCthAux C k (l ++ [x])
        = everyCthAux C k l ++ (if C ∣ k + l.length + 1 then [x] else []) := by
  intro l
  induction l with
  | nil =>
    intro k
    simp [everyCthAux]
  | cons a l ih =>
    intro k
    simp only [List.cons_append, everyCthAux, List.append_eq]
    rw [ih (k + 1)]
    have he : k + 1 + l.length + 1 = k + (a :: l).length + 1 := by
      simp only [List.length_cons]
      omega
    rw [he, List.append_assoc]

theorem everyCth_append (C : ℕ) (l : List ℕ) (x : ℕ) :
    everyCth C (l ++ [x])
      = everyCth C l ++ (if C ∣ l.length + 1 then [x] else []) := by
  have h := everyCthAux_append C x l 0
  simpa [everyCth] using h

theorem c8_invariant {α : Type} (accF accM : ℕ) (recon : List α → Mesh)
    (scanOf : ℕ → α) (n : ℕ) (hC : 0 < accM) :
    ∀ (idxs : List ℕ) (s : PState α),
      s.mapCount = s.recons.length % accM →
      s.interims = everyCth accM s.recons →
      (runFrames accF accM recon scanOf n s idxs).mapCount
        = (runFrames accF accM recon scanOf n s idxs).recons.length % accM ∧
      (runFrames accF accM recon scanOf n s idxs).interims
        = everyCth accM (runFrames accF accM recon scanOf n s idxs).recons := by
  intro idxs
  induction idxs with
  | nil => intro s h1 h2; exact ⟨h1, h2⟩
  | cons i l ih =>
    intro s h1 h2
    rw [runFrames_cons]
    have hstep : (stepP accF accM recon scanOf n s i).mapCount
        = (stepP accF accM recon scanOf n s i).recons.length % accM ∧
        (stepP accF accM recon scanOf n s i).interims
        = everyCth accM (stepP accF accM recon scanOf n s i).recons := by
      by_cases hf : s.scanCount + 1 ≥ accF ∨ i = n - 1
      · by_cases hm : s.mapCount + 1 ≥ accM
        · obtain ⟨ha, hb, hc⟩ := stepP_fire_ckpt accF accM recon scanOf n s i hf hm
          have hlt := Nat.mod_lt s.recons.length hC
          have hmod : s.recons.length % accM + 1 = accM := by omega
          constructor
          · rw [ha, hc, List.length_append, List.length_singleton]
            exact (mod_succ_of_eq accM _ hmod).symm
          · rw [hb, hc, h2, everyCth_append,
              if_pos ((dvd_succ_iff_mod accM _ hC).mpr hmod)]
        · obtain ⟨ha, hb, hc⟩ := stepP_fire_nockpt accF accM recon scanOf n s i hf hm
          have hlt := Nat.mod_lt s.recons.length hC
          have hmod : s.recons.length % accM + 1 < accM := by omega
          constructor
          · rw [ha, hc, List.length_append, List.length_singleton, h1]
            exact (mod_succ_of_lt accM _ hmod).symm
          · rw [hb, hc, h2, everyCth_append,
              if_neg (fun hdvd => absurd ((dvd_succ_iff_mod accM _ hC).mp hdvd)
                (by omega))]
            simp
      · obtain ⟨-, hb, hc, hd⟩ := stepP_nofire accF accM recon scanOf n s i hf
        exact ⟨by rw [hc, hb, h1], by rw [hd, hb, h2]⟩
    exact ih _ hstep.1 hstep.2

/-! ### Trigger characterisation and counter bounds -/

theorem c2_invariant {α : Type} (accF accM : ℕ) (recon : List α → Mesh)
    (scanOf : ℕ → α) (n : ℕ) (hK : 0 < accF) :
    ∀ m : ℕ, m < n →
      (runFrames accF accM recon scanOf n initPState (List.range m)).scanCount
        = m % accF ∧
      (runFrames accF accM recon scanOf n initPState (List.range m)).recons
        = (List.range m).filter (fun i => decide (accF ∣ i + 1)) := by
  intro m
  induction m with
  | zero =>
    intro _
    constructor
    · simp [runFrames, initPState, List.range_zero]
    · simp [runFrames, initPState, List.range_zero]
  | succ m ih =>
    intro hm
    obtain ⟨hsc, hrec⟩ := ih (Nat.lt_of_succ_lt hm)
    rw [List.range_succ, runFrames_append]
    set s := runFrames accF accM recon scanOf n initPState (List.range m)
      with hsdef
    have hone : runFrames accF accM recon scanOf n s [m]
        = stepP accF accM recon scanOf n s m := rfl
    rw [hone]
    have hnl : m ≠ n - 1 := by omega
    by_cases hf : accF ∣ m + 1
    · have hsc1 : s.scanCount + 1 = accF := by
        rw [hsc]
        exact (dvd_succ_iff_mod accF m hK).mp hf
      have hcond : s.scanCount + 1 ≥ accF ∨ m = n - 1 :=
        Or.inl (le_of_eq hsc1.symm)
      obtain ⟨h0, hR⟩ := stepP_fire accF accM recon scanOf n s m hcond
      constructor
      · rw [h0]
        exact (mod_succ_of_eq accF m (by omega)).symm
      · rw [hR, hrec, List.filter_append]
        congr 1
        simp [hf]
    · have hlt := Nat.mod_lt m hK
      have hne : m % accF + 1 ≠ accF :=
        fun he => hf ((dvd_succ_iff_mod accF m hK).mpr he)
      have hcond : ¬(s.scanCount + 1 ≥ accF ∨ m = n - 1) := by
        push_neg
        exact ⟨by omega, hnl⟩
      obtain ⟨h0, hR, -, -⟩ := stepP_nofire accF accM recon scanOf n s m hcond
      constructor
      · rw [h0, hsc]
        exact (mod_succ_of_lt accF m (by omega)).symm
      · rw [hR, hrec, List.filter_append]
        simp [hf]

theorem c10_invariant {α : Type} (accF accM : ℕ) (recon : List α → Mesh)
    (scanOf : ℕ → α) (n : ℕ) :
    ∀ (idxs : List ℕ) (s : PState α),
      s.scanCount < accF → s.mapCount < accM →
      (runFrames accF accM recon scanOf n s idxs).scanCount < accF ∧
      (runFrames accF accM recon scanOf n s idxs).mapCount < accM := by
  intro idxs
  induction idxs with
  | nil => intro s h1 h2; exact ⟨h1, h2⟩
  | cons i l ih =>
    intro s h1 h2
    rw [runFrames_cons]
    have hstep : (stepP accF accM recon scanOf n s i).scanCount < accF ∧
        (stepP accF accM recon scanOf n s i).mapCount < accM := by
      by_cases hf : s.scanCount + 1 ≥ accF ∨ i = n - 1
      · obtain ⟨h0, -⟩ := stepP_fire accF accM recon scanOf n s i hf
        by_cases hm : s.mapCount + 1 ≥ accM
        · obtain ⟨ha, -, -⟩ := stepP_fire_ckpt accF accM recon scanOf n s i hf hm
          exact ⟨by rw [h0]; omega, by rw [ha]; omega⟩
        · obtain ⟨ha, -, -⟩ := stepP_fire_nockpt accF accM recon scanOf n s i hf hm
          exact ⟨by rw [h0]; omega, by rw [ha]; omega⟩
      · obtain ⟨h0, -, hc, -⟩ := stepP_nofire accF accM recon scanOf n s i hf
        have hlt : ¬ s.scanCount + 1 ≥ accF := fun h => hf (Or.inl h)
        exact ⟨by rw [h0]; omega, by rw [hc]; exact h2⟩
    exact ih _ hstep.1 hstep.2

/-! ### Claim theorems -/

/-- Claim C1 (code bug): the claim states that in odometry-only mode no
reconstruction pass, no fusion and no file write ever occurs.  The code
violates it: the mapping block of the loop (lines 157–175) is not guarded by
`mapping_enabled`, so with `odometry_only` set and
`acc_frame_count = acc_map_count = 1`, `n_scans = 1`, a reconstruction pass
runs at frame 0 and the interim mesh file is written; only the final write
is suppressed. -/
theorem claim_C1 :
    (runPipeline 1 1 wRecon wScan 1 true).state.recons = [0] ∧
    (runPipeline 1 1 wRecon wScan 1 true).state.interims = [0] ∧
    (runPipeline 1 1 wRecon wScan 1 true).finalWrite = false := by
  decide

/-- Claim C2: the trigger fires on frame `i` exactly when `scan_count`
(incremented on every push) has reached `acc_frame_count`, i.e. when
`accF ∣ i + 1`, or `i` is the last frame; on firing `scan_count` resets to
0 (so it is 0 after the run ends).  For n_scans = 10, K = 4 this gives
firings exactly at 3, 7, 9 (the witness). -/
theorem claim_C2 {α : Type} (accF accM : ℕ) (recon : List α → Mesh)
    (scanOf : ℕ → α) (n : ℕ) (mo : Bool) (hK : 0 < accF) :
    (runPipeline accF accM recon scanOf n mo).state.recons
      = (List.range n).filter (fun i => decide (accF ∣ i + 1 ∨ i = n - 1)) ∧
    (0 < n → (runPipeline accF accM recon scanOf n mo).state.scanCount = 0) := by
  cases n with
  | zero => exact ⟨rfl, fun h => absurd h (lt_irrefl 0)⟩
  | succ m =>
    obtain ⟨hsc, hrec⟩ :=
      c2_invariant accF accM recon scanOf (m + 1) hK m (Nat.lt_succ_self m)
    have hstate : (runPipeline accF accM recon scanOf (m + 1) mo).state
        = stepP accF accM recon scanOf (m + 1)
            (runFrames accF accM recon scanOf (m + 1) initPState
              (List.range m)) m := by
      show runFrames accF accM recon scanOf (m + 1) initPState
          (progressIndices (m + 1)) = _
      rw [progressIndices, List.range_succ, runFrames_append]
      rfl
    set s := runFrames accF accM recon scanOf (m + 1) initPState (List.range m)
      with hsdef
    have hcond : s.scanCount + 1 ≥ accF ∨ m = (m + 1) - 1 := Or.inr (by omega)
    obtain ⟨h0, hR⟩ := stepP_fire accF accM recon scanOf (m + 1) s m hcond
    constructor
    · rw [hstate, hR, hrec, List.range_succ, List.filter_append]
      congr 1
      · apply List.filter_congr
        intro i hi
        have him : i < m := List.mem_range.mp hi
        have hne : i ≠ m := by omega
        simp [hne]
      · simp
    · intro _
      rw [hstate]
      exact h0

/-- Witness for C2 at the claim's concrete instance: n_scans = 10, K = 4
fire exactly at frame indices 3, 7, 9, and the counter ends at 0. -/
theorem claim_C2_witness :
    (runPipeline 4 1 wRecon wScan 10 false).state.recons = [3, 7, 9] ∧
    (runPipeline 4 1 wRecon wScan 10 false).state.scanCount = 0 := by
  obtain ⟨h1, h2⟩ := claim_C2 4 1 wRecon wScan 10 false (by decide)
  exact ⟨by rw [h1]; decide, h2 (by decide)⟩

/-- Claim C3: the driving loop processes every frame index in [0, n_scans)
in order, none skipped (the loop body — preprocessing, transforming,
pushing, consulting the trigger — executes unconditionally for each index,
and `processed` logs each iteration). -/
theorem claim_C3 {α : Type} (accF accM : ℕ) (recon : List α → Mesh)
    (scanOf : ℕ → α) (n : ℕ) (mo : Bool) :
    (runPipeline accF accM recon scanOf n mo).state.processed = List.range n := by
  show (runFrames accF accM recon scanOf n initPState
      (progressIndices n)).processed = List.range n
  rw [runFrames_processed]
  simp [initPState, progressIndices]

/-- Claim C4: the window buffer never exceeds its capacity `K`, holds
exactly `K` elements after at least `K` pushes, and at every point of the
run — the buffer is never cleared, also not on a trigger — its contents are
exactly the last `min(pushes, K)` pushed frames in push order. -/
theorem claim_C4 {α : Type} (K : ℕ) :
    (∀ xs : List α, (windowFold K xs).length = min xs.length K ∧
        windowFold K xs = xs.drop (xs.length - K)) ∧
    (∀ (accM : ℕ) (recon : List α → Mesh) (scanOf : ℕ → α) (nScans m : ℕ),
        (runFrames K accM recon scanOf nScans initPState
            (List.range m)).localMap
          = ((List.range m).map scanOf).drop (m - K)) := by
  constructor
  · intro xs
    exact ⟨windowFold_length K xs, windowFold_eq K xs⟩
  · intro accM recon scanOf nScans m
    rw [runFrames_localMap]
    show ((List.range m).map scanOf).foldl (pushWindow K) ([] : List α) = _
    rw [show ((List.range m).map scanOf).foldl (pushWindow K) ([] : List α)
        = windowFold K ((List.range m).map scanOf) from rfl, windowFold_eq]
    simp

/-- Claim C5: on a firing frame the step performs exactly the three fusion
steps in order — concatenate the candidate patch (representation-level
union), remove duplicated triangles, remove duplicated vertices — on the
global mesh; on a non-firing frame the global mesh is untouched. -/
theorem claim_C5 {α : Type} (accF accM : ℕ) (recon : List α → Mesh)
    (scanOf : ℕ → α) (n : ℕ) (s : PState α) (idx : ℕ) :
    (stepP accF accM recon scanOf n s idx).globalMesh =
      if s.scanCount + 1 ≥ accF ∨ idx = n - 1 then
        removeDuplicatedVertices (removeDuplicatedTriangles
          (meshConcat s.globalMesh
            (recon (pushWindow accF s.localMap (scanOf idx)))))
      else s.globalMesh := by
  by_cases hf : s.scanCount + 1 ≥ accF ∨ idx = n - 1
  · rw [if_pos hf]
    by_cases hm : s.mapCount + 1 ≥ accM <;> simp [stepP, hf, hm]
  · rw [if_neg hf]
    simp [stepP, hf]

/-- Claim C6: fusing an empty candidate patch leaves the global mesh's
vertex set (set of vertex positions) and triangle set (triangles identified
by the multiset of their vertex positions, the duplicate-triangle identity)
unchanged — for every mesh, hence for every reachable global mesh state. -/
theorem claim_C6 (m : Mesh) :
    vertexSet (removeDuplicatedVertices (removeDuplicatedTriangles
      (meshConcat m emptyMesh))) = vertexSet m ∧
    triangleSet (removeDuplicatedVertices (removeDuplicatedTriangles
      (meshConcat m emptyMesh))) = triangleSet m := by
  rw [meshConcat_empty]
  exact ⟨(vertexSet_rdv _).trans (vertexSet_rdt m),
    (triangleSet_rdv _).trans (triangleSet_rdt m)⟩

/-- Counterexample to Claim C7 as stated: the dedup pass (remove duplicated
triangles, then remove duplicated vertices) is not idempotent.  On
`cexMesh`, merging the duplicated vertex turns the two triangles — distinct
by index sets — into duplicates of one another, which only a second pass
removes. -/
theorem claim_C7_cex : dedupPass (dedupPass cexMesh) ≠ dedupPass cexMesh := by
  decide

/-- Claim C7 (amended): the dedup pass stabilises after two applications —
for every mesh, applying it three times equals applying it twice (the
second pass can still remove triangles made duplicate by the first pass's
vertex merging; from then on the result is a fixed point). -/
theorem claim_C7 (m : Mesh) :
    dedupPass (dedupPass (dedupPass m)) = dedupPass (dedupPass m) := by
  rw [dedupPass_two m]
  show removeDuplicatedVertices (removeDuplicatedTriangles
      (removeDuplicatedTriangles (dedupPass m)))
    = removeDuplicatedTriangles (dedupPass m)
  rw [rdt_idem]
  exact dedupPass_two m

/-- Claim C8: `map_count` always equals the number of reconstruction passes
so far modulo the checkpoint interval C (so it is incremented after each
pass and reset exactly when it reaches C), an interim write occurs exactly
after every C-th reconstruction pass and at no other time, and exactly one
unconditional final write occurs at stream end iff mapping is enabled. -/
theorem claim_C8 {α : Type} (accF accM : ℕ) (recon : List α → Mesh)
    (scanOf : ℕ → α) (n : ℕ) (mo : Bool) (hC : 0 < accM) :
    (runPipeline accF accM recon scanOf n mo).state.interims
      = everyCth accM (runPipeline accF accM recon scanOf n mo).state.recons ∧
    (runPipeline accF accM recon scanOf n mo).state.mapCount
      = (runPipeline accF accM recon scanOf n mo).state.recons.length % accM ∧
    (runPipeline accF accM recon scanOf n mo).finalWrite = !mo := by
  have h := c8_invariant accF accM recon scanOf n hC (progressIndices n)
    initPState (by simp [initPState]) rfl
  exact ⟨h.2, h.1, rfl⟩

/-- Witness for C8: with C = 2, K = 2, n_scans = 5 the passes fire at
1, 3, 4 and the single interim write follows the second pass (index 3). -/
theorem claim_C8_witness :
    ((runPipeline 2 2 wRecon wScan 5 false).state.interims
        = everyCth 2 (runPipeline 2 2 wRecon wScan 5 false).state.recons ∧
      (runPipeline 2 2 wRecon wScan 5 false).state.mapCount
        = (runPipeline 2 2 wRecon wScan 5 false).state.recons.length % 2 ∧
      (runPipeline 2 2 wRecon wScan 5 false).finalWrite = !false) ∧
    (runPipeline 2 2 wRecon wScan 5 false).state.interims = [3] :=
  ⟨claim_C8 2 2 wRecon wScan 5 false (by decide), by decide⟩

/-- Counterexample to Claim C9 as stated: with zero scans found and the
default `n_scans = -1`, the run does not fail with a configuration error —
it runs an empty loop and, mapping being enabled, still writes the final
(empty) mesh file, contradicting "no mesh file is written". -/
theorem claim_C9_cex :
    (runPipeline 1 1 wRecon wScan (resolveNScans (-1) 0) false).finalWrite
        = true ∧
    (runPipeline 1 1 wRecon wScan (resolveNScans (-1) 0) false).state.processed
        = [] ∧
    (runPipeline 1 1 wRecon wScan (resolveNScans (-1) 0) false).state.interims
        = [] := by
  decide

/-- Claim C9 (amended): if zero scans are found (`n_scans = -1` resolves to
0), no error is raised and the loop body never runs — no frame processed,
no reconstruction, no interim write, global mesh still empty — but the
final write still occurs exactly when mapping is enabled. -/
theorem claim_C9 {α : Type} (accF accM : ℕ) (recon : List α → Mesh)
    (scanOf : ℕ → α) (mo : Bool) :
    (runPipeline accF accM recon scanOf (resolveNScans (-1) 0) mo).state.processed
        = [] ∧
    (runPipeline accF accM recon scanOf (resolveNScans (-1) 0) mo).state.recons
        = [] ∧
    (runPipeline accF accM recon scanOf (resolveNScans (-1) 0) mo).state.interims
        = [] ∧
    (runPipeline accF accM recon scanOf (resolveNScans (-1) 0) mo).state.globalMesh
        = emptyMesh ∧
    (runPipeline accF accM recon scanOf (resolveNScans (-1) 0) mo).finalWrite
        = !mo :=
  ⟨rfl, rfl, rfl, rfl, rfl⟩

/-- Claim C10: with `acc_frame_count ≥ 1` and `acc_map_count ≥ 1`, at the
end of every loop iteration both counters lie strictly below their bounds
(each is reset to 0 in the very iteration it reaches its bound; as naturals
they are never negative). -/
theorem claim_C10 {α : Type} (accF accM : ℕ) (recon : List α → Mesh)
    (scanOf : ℕ → α) (n : ℕ) (hF : 0 < accF) (hM : 0 < accM) :
    ∀ idxs : List ℕ,
      (runFrames accF accM recon scanOf n initPState idxs).scanCount < accF ∧
      (runFrames accF accM recon scanOf n initPState idxs).mapCount < accM :=
  fun idxs => c10_invariant accF accM recon scanOf n idxs initPState hF hM

/-- Witness for C10 at a concrete configuration and index prefix. -/
theorem claim_C10_witness :
    (runFrames 2 3 wRecon wScan 4 initPState [0, 1, 2, 3]).scanCount < 2 ∧
    (runFrames 2 3 wRecon wScan 4 initPState [0, 1, 2, 3]).mapCount < 3 :=
  claim_C10 2 3 wRecon wScan 4 (by decide) (by decide) [0, 1, 2, 3]
